import Mathlib

/-!
Shallow embedding of the Concordium voting contract
`src/lib/govote-voting/src/lib.rs` (crate `govote-voting`).

Modelling conventions:
* `ProposalId` is the Rust `u8`; it is embedded as `Nat`, and the one place
  where the source performs a width-changing cast (`i as ProposalId` in
  `State::new`) is embedded as an explicit `% 256`.
* `u32` counters (`vote_count`, `weight`) are embedded as `Nat`; the source's
  unguarded `-=` on `u32` is embedded as truncated `Nat` subtraction, and the
  no-underflow theorem shows the subtrahend never exceeds the minuend in
  reachable states, where the two semantics agree.
* The Rust `HashMap`s (`voters`, `proposals`) are embedded as association
  lists holding the map's entries in some enumeration order.  A `HashMap`'s
  iteration order is implementation defined, so theorems that depend on the
  order of `state.proposals.iter()` quantify over every possible list order.
  `entry(..).or_insert_with(..)` places a fresh key at an arbitrary position
  of the enumeration; the embedding appends it at the end.
* Each entrypoint takes the caller identity (`ctx.sender()`) explicitly and
  returns the pair of its `ContractResult` and the post state, mirroring the
  `&mut State` parameter: an early `return`/`ensure!`/`?` yields the state
  unchanged.  Parameter decoding (`ParseParams`) and logging are outside the
  embedded core.
-/

namespace Govote

/-- `type ProposalId = u8`; embedded as `Nat` (values produced are `< 256`). -/
abbrev ProposalId := Nat

/-- Opaque account identity (`Address` in the source). -/
abbrev Address := Nat

/-- `struct VoterState { weight: u32, voted: bool, vote: ProposalId }`. -/
structure VoterState where
  weight : Nat
  voted : Bool
  vote : ProposalId
  deriving DecidableEq, Repr

/-- `#[derive(Default)]` for `VoterState`: all fields zero/false. -/
def VoterState.defaultVal : VoterState := { weight := 0, voted := false, vote := 0 }

/-- `struct Proposal { name: String, vote_count: u32 }`. -/
structure Proposal where
  name : String
  vote_count : Nat
  deriving DecidableEq, Repr

/-- `Proposal::new(name)`: fresh proposal with `vote_count = 0`. -/
def Proposal.new (name : String) : Proposal := { name := name, vote_count := 0 }

/-- `#[derive(Default)]` for `Proposal`: empty name, zero count. -/
def Proposal.defaultVal : Proposal := { name := "", vote_count := 0 }

/-- `enum Status { InProcess, Finished }`. -/
inductive Status where
  | InProcess
  | Finished
  deriving DecidableEq, Repr

/-- The `ContractError` variants the embedded core can produce (the log and
parse errors belong to the excluded plumbing). -/
inductive ContractError where
  | AlreadyFinished
  | VoterIsNotFound
  | NotVoted
  | ProposalIsNotFound
  deriving DecidableEq, Repr

/-- The contract state `struct State`. -/
structure State where
  voters : List (Address × VoterState)
  proposals : List (ProposalId × Proposal)
  status : Status
  winning_proposal_id : List ProposalId
  title : String
  description : String
  expiry : Nat
  deriving DecidableEq, Repr

/-- `HashMap::get`: the value at the first occurrence of the key. -/
def alookup {β : Type} (k : Nat) : List (Nat × β) → Option β
  | [] => none
  | e :: rest => if e.1 = k then some e.2 else alookup k rest

/-- In-place update of the value stored at key `k` (no-op when absent);
models mutation through `get_mut`/`entry` of a present key. -/
def aupdate {β : Type} (k : Nat) (f : β → β) : List (Nat × β) → List (Nat × β)
  | [] => []
  | e :: rest => if e.1 = k then (e.1, f e.2) :: rest else e :: aupdate k f rest

/-- `map.entry(k).or_insert_with(d)` followed by the caller mutating the
entry with `f`: update when present, insert `f d` when absent. -/
def aentry {β : Type} (k : Nat) (d : β) (f : β → β) (l : List (Nat × β)) :
    List (Nat × β) :=
  match alookup k l with
  | some _ => aupdate k f l
  | none => l ++ [(k, f d)]

/-- `HashMap::insert`: overwrite when present, add when absent. -/
def ainsert {β : Type} (k : Nat) (v : β) (l : List (Nat × β)) : List (Nat × β) :=
  aentry k v (fun _ => v) l

/-- `State::new`: seeds the proposal registry with
`proposals.insert(i as ProposalId, Proposal::new(name))` for each enumerated
name; the `usize → u8` cast is the explicit `% 256`. -/
def State.new (title description : String) (proposal_names : List String)
    (expiry : Nat) : State :=
  { voters := []
    proposals := (proposal_names.enum).foldl
      (fun m p => ainsert (p.1 % 256) (Proposal.new p.2) m) []
    status := Status.InProcess
    winning_proposal_id := []
    title := title
    description := description
    expiry := expiry }

/-- `State::get_voter`. -/
def State.get_voter (s : State) (voter_address : Address) : Option VoterState :=
  alookup voter_address s.voters

/-- `State::add_vote_count`: `entry(id).or_insert_with(default)`, then
`vote_count += weight`. -/
def State.add_vote_count (s : State) (proposal_id : ProposalId) (weight : Nat) :
    State :=
  { s with proposals :=
      (aentry proposal_id Proposal.defaultVal
        (fun p => { p with vote_count := p.vote_count + weight }) s.proposals) }

/-- `State::subtract_vote_count`: `entry(id).or_insert_with(default)`, then
`vote_count -= weight` (unguarded `u32` subtraction, embedded truncated). -/
def State.subtract_vote_count (s : State) (proposal_id : ProposalId)
    (weight : Nat) : State :=
  { s with proposals :=
      (aentry proposal_id Proposal.defaultVal
        (fun p => { p with vote_count := p.vote_count - weight }) s.proposals) }

/-- The `vote` entrypoint `contract_vote`.  Precondition order is the
source's: the proposal lookup (`ok_or(ProposalIsNotFound)?`) runs before the
`ensure!(status != Finished, AlreadyFinished)`.  The final
`get_voter(..).map(|a| a.weight).unwrap()` is embedded with `getD 0`; the
preceding `entry` call guarantees the lookup is `some`. -/
def contract_vote (s : State) (sender : Address) (proposal_id : ProposalId) :
    Except ContractError Unit × State :=
  match alookup proposal_id s.proposals with
  | none => (Except.error ContractError.ProposalIsNotFound, s)
  | some _ =>
    if s.status = Status.Finished then
      (Except.error ContractError.AlreadyFinished, s)
    else
      let s1 :=
        match s.get_voter sender with
        | some v =>
          if v.voted then s.subtract_vote_count v.vote v.weight else s
        | none => s
      let s2 := { s1 with voters :=
          (aentry sender VoterState.defaultVal
            (fun v =>
              { v with voted := true, weight := 1, vote := proposal_id })
            s1.voters) }
      let s3 := s2.add_vote_count proposal_id
          (((s2.get_voter sender).map VoterState.weight).getD 0)
      (Except.ok (), s3)

/-- The tally loop of `contract_winning_proposal`, over the proposals in the
map's enumeration order, carrying `winning_vote_count` and
`winning_proposal_id`. -/
def winners_loop : Nat → List ProposalId → List (ProposalId × Proposal) →
    Nat × List ProposalId
  | wvc, wpi, [] => (wvc, wpi)
  | wvc, wpi, e :: rest =>
    if wvc < e.2.vote_count then winners_loop e.2.vote_count [e.1] rest
    else if wvc = e.2.vote_count then winners_loop wvc (wpi ++ [e.1]) rest
    else winners_loop wvc wpi rest

/-- The `winningProposal` entrypoint `contract_winning_proposal`. -/
def contract_winning_proposal (s : State) : Except ContractError Unit × State :=
  if s.status = Status.Finished then
    (Except.error ContractError.AlreadyFinished, s)
  else
    (Except.ok (),
      { s with status := Status.Finished
               winning_proposal_id := (winners_loop 0 [] s.proposals).2 })

/-- The `cancelVote` entrypoint `cancel_vote`. -/
def cancel_vote (s : State) (sender : Address) :
    Except ContractError Unit × State :=
  if s.status = Status.Finished then
    (Except.error ContractError.AlreadyFinished, s)
  else
    match alookup sender s.voters with
    | none => (Except.error ContractError.VoterIsNotFound, s)
    | some voter =>
      if voter.voted = true then
        match alookup voter.vote s.proposals with
        | none => (Except.error ContractError.ProposalIsNotFound, s)
        | some _ =>
          let s1 := { s with proposals :=
              (aupdate voter.vote
                (fun p => { p with vote_count := p.vote_count - voter.weight })
                s.proposals) }
          let s2 := { s1 with voters :=
              (aupdate sender
                (fun v => { v with voted := false, vote := 0 }) s1.voters) }
          (Except.ok (), s2)
      else (Except.error ContractError.NotVoted, s)

/-- States reachable from a freshly initialized session
(`contract_init` = `State::new`) by any sequence of the three entrypoints,
successful or failing (a failing call keeps the state). -/
inductive Reachable : State → Prop where
  | init (title description : String) (proposal_names : List String)
      (expiry : Nat) :
      Reachable (State.new title description proposal_names expiry)
  | vote {s : State} (a : Address) (pid : ProposalId) :
      Reachable s → Reachable (contract_vote s a pid).2
  | cancel {s : State} (a : Address) :
      Reachable s → Reachable (cancel_vote s a).2
  | tally {s : State} :
      Reachable s → Reachable (contract_winning_proposal s).2

/-- Sum of `h` over the values of an association list. -/
def asum {β : Type} (h : β → Nat) (l : List (Nat × β)) : Nat :=
  (l.map (fun e => h e.2)).sum

/-- The `vote_count` stored for a proposal id (0 when absent). -/
def countOf (pid : ProposalId) (l : List (ProposalId × Proposal)) : Nat :=
  match alookup pid l with
  | some p => p.vote_count
  | none => 0

/-- `sum(proposal.voteCount for all proposals)`. -/
def sumVotes (l : List (ProposalId × Proposal)) : Nat :=
  asum Proposal.vote_count l

/-- A voter record's contribution to the cast-vote total: its weight when
`voted`, else 0. -/
def votedWeight (v : VoterState) : Nat := if v.voted = true then v.weight else 0

/-- `sum(voter.weight for all voters where voted == true)`. -/
def sumWeights (vs : List (Address × VoterState)) : Nat :=
  asum votedWeight vs

/-- A voter record's contribution to one proposal's count: its weight when it
currently votes for `pid`, else 0. -/
def voteWeightFor (pid : ProposalId) (v : VoterState) : Nat :=
  if v.voted = true ∧ v.vote = pid then v.weight else 0

/-- Total weight currently cast for proposal `pid`. -/
def votesFor (pid : ProposalId) (vs : List (Address × VoterState)) : Nat :=
  asum (voteWeightFor pid) vs

/-- Running maximum of `vote_count` over an enumeration of the proposals
(0 for the empty map, matching the loop's initial `winning_vote_count`). -/
def maxCount : List (ProposalId × Proposal) → Nat
  | [] => 0
  | e :: t => max e.2.vote_count (maxCount t)

/-- The state invariant maintained by the three entrypoints. -/
structure Inv (s : State) : Prop where
  weightOne : ∀ e ∈ s.voters, e.2.weight = 1
  voteValid : ∀ e ∈ s.voters, e.2.voted = true →
    (alookup e.2.vote s.proposals).isSome = true
  perProp : ∀ pid, votesFor pid s.voters ≤ countOf pid s.proposals
  conservation : sumVotes s.proposals = sumWeights s.voters

/-- Concrete session mirroring the test fixture: two proposals, ids 0 and 1,
status `InProcess`. -/
def exInit : State :=
  State.new "Test Title" "This is test description." ["A", "B"] 1

/-- `exInit` after account 1 votes for proposal 0 (a reachable state with one
voted voter). -/
def exVoted : State := (contract_vote exInit 1 0).2

/-- `exInit` after finalization (a reachable `Finished` state). -/
def exFinished : State := (contract_winning_proposal exInit).2

/-- A session whose proposals map enumerates id 1 before id 0 — the hash-map
iteration order the reference test `test_contract_winning_proposal_no_voters`
observed (`winning_proposal_id == vec![1, 0]`). -/
def exDesc : State :=
  State.mk [] [(1, Proposal.new "B"), (0, Proposal.new "A")]
    Status.InProcess [] "Test Title" "This is test description." 1

end Govote

namespace Govote

theorem alookup_mem {β : Type} {k : Nat} {v : β} :
    ∀ {l : List (Nat × β)}, alookup k l = some v → (k, v) ∈ l := by
  intro l
  induction l with
  | nil => simp [alookup]
  | cons e rest ih =>
    by_cases he : e.1 = k
    · simp [alookup, he]
      intro h
      subst he h
      simp
    · simp [alookup, he]
      intro h
      exact Or.inr (ih h)

theorem alookup_eq_none {β : Type} {k : Nat} :
    ∀ {l : List (Nat × β)}, (∀ e ∈ l, e.1 ≠ k) → alookup k l = none := by
  intro l
  induction l with
  | nil => simp [alookup]
  | cons e rest ih =>
    intro h
    have he : e.1 ≠ k := h e (by simp)
    simp [alookup, he]
    exact ih (fun x hx => h x (by simp [hx]))

theorem alookup_append_some {β : Type} {k : Nat} {v : β}
    {l l2 : List (Nat × β)} (h : alookup k l = some v) :
    alookup k (l ++ l2) = some v := by
  induction l with
  | nil => simp [alookup] at h
  | cons e rest ih =>
    by_cases he : e.1 = k
    · simp [alookup, he] at h ⊢
      exact h
    · simp [alookup, he] at h ⊢
      exact ih h

theorem alookup_append_none {β : Type} {k : Nat}
    {l : List (Nat × β)} (l2 : List (Nat × β)) (h : alookup k l = none) :
    alookup k (l ++ l2) = alookup k l2 := by
  induction l with
  | nil => simp
  | cons e rest ih =>
    by_cases he : e.1 = k
    · simp [alookup, he] at h
    · simp [alookup, he] at h ⊢
      exact ih h

theorem alookup_aupdate_self {β : Type} {k : Nat} {v : β} (f : β → β) :
    ∀ {l : List (Nat × β)}, alookup k l = some v →
      alookup k (aupdate k f l) = some (f v) := by
  intro l
  induction l with
  | nil => simp [alookup]
  | cons e rest ih =>
    by_cases he : e.1 = k
    · simp [alookup, aupdate, he]
      intro h
      exact congrArg f h
    · simp [alookup, aupdate, he]
      exact ih

theorem alookup_aupdate_ne {β : Type} {k q : Nat} (hne : q ≠ k) (f : β → β) :
    ∀ {l : List (Nat × β)}, alookup q (aupdate k f l) = alookup q l := by
  intro l
  induction l with
  | nil => simp [aupdate]
  | cons e rest ih =>
    have hkq : ¬ (k = q) := fun h => hne h.symm
    by_cases he : e.1 = k
    · subst he
      simp [alookup, aupdate, hkq]
    · simp [alookup, aupdate, he, ih]

theorem alookup_aupdate_isSome {β : Type} (k q : Nat) (f : β → β)
    (l : List (Nat × β)) :
    (alookup q (aupdate k f l)).isSome = (alookup q l).isSome := by
  by_cases hq : q = k
  · subst hq
    cases hl : alookup q l with
    | none =>
      have : aupdate q f l = l := by
        induction l with
        | nil => simp [aupdate]
        | cons e rest ih =>
          by_cases he : e.1 = q
          · simp [alookup, he] at hl
          · simp [alookup, he] at hl
            simp [aupdate, he, ih hl]
      simp [this, hl]
    | some v => simp [alookup_aupdate_self f hl, hl]
  · simp [alookup_aupdate_ne hq f]

theorem mem_aupdate {β : Type} {k : Nat} {f : β → β} {e : Nat × β} :
    ∀ {l : List (Nat × β)}, e ∈ aupdate k f l →
      e ∈ l ∨ ∃ v, (k, v) ∈ l ∧ e = (k, f v) := by
  intro l
  induction l with
  | nil => simp [aupdate]
  | cons x rest ih =>
    by_cases hx : x.1 = k
    · simp [aupdate, hx]
      intro h
      rcases h with h | h
      · right
        exact ⟨x.2, Or.inl (by simp [← hx]), by simp [h, hx]⟩
      · left
        simp [h]
    · simp [aupdate, hx]
      intro h
      rcases h with h | h
      · left
        simp [h]
      · rcases ih h with h' | ⟨v, hv, he⟩
        · left
          simp [h']
        · right
          exact ⟨v, Or.inr hv, he⟩

theorem asum_nil {β : Type} (h : β → Nat) : asum h ([] : List (Nat × β)) = 0 :=
  rfl

theorem asum_cons {β : Type} (h : β → Nat) (e : Nat × β) (l : List (Nat × β)) :
    asum h (e :: l) = h e.2 + asum h l := by
  simp [asum]

theorem asum_append {β : Type} (h : β → Nat) (l l2 : List (Nat × β)) :
    asum h (l ++ l2) = asum h l + asum h l2 := by
  simp [asum]

theorem asum_aupdate {β : Type} (h : β → Nat) {k : Nat} {v : β} (f : β → β) :
    ∀ {l : List (Nat × β)}, alookup k l = some v →
      asum h (aupdate k f l) + h v = asum h l + h (f v) := by
  intro l
  induction l with
  | nil => simp [alookup]
  | cons e rest ih =>
    intro hl
    by_cases he : e.1 = k
    · simp [alookup, he] at hl
      simp [aupdate, he, asum_cons, hl]
      omega
    · simp [alookup, he] at hl
      have := ih hl
      simp [aupdate, he, asum_cons]
      omega

theorem alookup_le_asum {β : Type} (h : β → Nat) {k : Nat} {v : β}
    {l : List (Nat × β)} (hl : alookup k l = some v) : h v ≤ asum h l := by
  induction l with
  | nil => simp [alookup] at hl
  | cons e rest ih =>
    by_cases he : e.1 = k
    · simp [alookup, he] at hl
      simp only [asum_cons, hl]
      omega
    · simp [alookup, he] at hl
      have := ih hl
      simp only [asum_cons]
      omega

theorem aentry_of_some {β : Type} {k : Nat} {v : β} (d : β) (f : β → β)
    {l : List (Nat × β)} (h : alookup k l = some v) :
    aentry k d f l = aupdate k f l := by
  simp [aentry, h]

theorem aentry_of_none {β : Type} {k : Nat} (d : β) (f : β → β)
    {l : List (Nat × β)} (h : alookup k l = none) :
    aentry k d f l = l ++ [(k, f d)] := by
  simp [aentry, h]

theorem alookup_aentry_self_some {β : Type} {k : Nat} {v : β} (d : β)
    (f : β → β) {l : List (Nat × β)} (h : alookup k l = some v) :
    alookup k (aentry k d f l) = some (f v) := by
  rw [aentry_of_some d f h]
  exact alookup_aupdate_self f h

theorem alookup_aentry_self_none {β : Type} {k : Nat} (d : β)
    (f : β → β) {l : List (Nat × β)} (h : alookup k l = none) :
    alookup k (aentry k d f l) = some (f d) := by
  rw [aentry_of_none d f h, alookup_append_none _ h]
  simp [alookup]

theorem countOf_aupdate_self {k : Nat} {p : Proposal}
    (f : Proposal → Proposal) {l : List (ProposalId × Proposal)}
    (h : alookup k l = some p) :
    countOf k (aupdate k f l) = (f p).vote_count := by
  simp [countOf, alookup_aupdate_self f h]

theorem countOf_aupdate_ne {k q : Nat} (hne : q ≠ k)
    (f : Proposal → Proposal) (l : List (ProposalId × Proposal)) :
    countOf q (aupdate k f l) = countOf q l := by
  simp [countOf, alookup_aupdate_ne hne f]

theorem countOf_eq {k : Nat} {p : Proposal} {l : List (ProposalId × Proposal)}
    (h : alookup k l = some p) : countOf k l = p.vote_count := by
  simp [countOf, h]

end Govote

namespace Govote

theorem maxCount_cons (e : ProposalId × Proposal)
    (l : List (ProposalId × Proposal)) :
    maxCount (e :: l) = max e.2.vote_count (maxCount l) := rfl

theorem le_maxCount {l : List (ProposalId × Proposal)} :
    ∀ e ∈ l, e.2.vote_count ≤ maxCount l := by
  induction l with
  | nil => simp
  | cons x rest ih =>
    intro e he
    rw [List.mem_cons] at he
    rcases he with he | he
    · subst he
      rw [maxCount_cons]
      omega
    · have := ih e he
      rw [maxCount_cons]
      omega

theorem maxCount_attained {l : List (ProposalId × Proposal)} (hne : l ≠ []) :
    ∃ e ∈ l, e.2.vote_count = maxCount l := by
  induction l with
  | nil => exact absurd rfl hne
  | cons x rest ih =>
    by_cases hr : rest = []
    · subst hr
      refine ⟨x, by simp, ?_⟩
      rw [maxCount_cons]
      simp [maxCount]
    · obtain ⟨e, he, hme⟩ := ih hr
      by_cases hc : maxCount rest ≤ x.2.vote_count
      · refine ⟨x, by simp, ?_⟩
        rw [maxCount_cons]
        omega
      · refine ⟨e, by simp [he], ?_⟩
        rw [maxCount_cons]
        omega

theorem winners_loop_eq (l : List (ProposalId × Proposal)) :
    ∀ (m : Nat) (ws : List ProposalId),
      winners_loop m ws l =
        (max m (maxCount l),
         if m < maxCount l then
           (l.filter (fun e => e.2.vote_count = maxCount l)).map Prod.fst
         else ws ++ (l.filter (fun e => e.2.vote_count = m)).map Prod.fst) := by
  induction l with
  | nil =>
    intro m ws
    simp [winners_loop, maxCount]
  | cons e rest ih =>
    intro m ws
    by_cases h1 : m < e.2.vote_count
    · have hstep : winners_loop m ws (e :: rest) =
          winners_loop e.2.vote_count [e.1] rest := by
        simp [winners_loop, h1]
      rw [hstep, ih]
      simp only [maxCount_cons]
      by_cases h2 : e.2.vote_count < maxCount rest
      · have hmx : max e.2.vote_count (maxCount rest) = maxCount rest := by
          omega
        have hm : m < maxCount rest := by omega
        have hne : ¬ (e.2.vote_count = maxCount rest) := by omega
        have hf : max m (maxCount rest) = maxCount rest := by omega
        simp only [hmx]
        simp [h2, hm, hne, hf, List.filter_cons]
      · have hmx : max e.2.vote_count (maxCount rest) = e.2.vote_count := by
          omega
        have hf : max m e.2.vote_count = e.2.vote_count := by omega
        simp only [hmx]
        simp [h2, h1, hf, List.filter_cons]
    · by_cases h2 : m = e.2.vote_count
      · have hstep : winners_loop m ws (e :: rest) =
            winners_loop m (ws ++ [e.1]) rest := by
          simp [winners_loop, h1, h2]
        rw [hstep, ih]
        simp only [maxCount_cons]
        by_cases h3 : m < maxCount rest
        · have hmx : max e.2.vote_count (maxCount rest) = maxCount rest := by
            omega
          have hne : ¬ (e.2.vote_count = maxCount rest) := by omega
          simp only [hmx]
          simp [h3, hne, List.filter_cons]
        · have hmx : max e.2.vote_count (maxCount rest) = m := by omega
          have hf1 : max m (maxCount rest) = m := by omega
          have hf2 : max m m = m := by omega
          have hcc : e.2.vote_count = m := by omega
          simp only [hmx]
          simp [h3, hf1, hf2, hcc, List.filter_cons]
      · have h4 : e.2.vote_count < m := by omega
        have hstep : winners_loop m ws (e :: rest) =
            winners_loop m ws rest := by
          simp [winners_loop, h1, h2]
        rw [hstep, ih]
        simp only [maxCount_cons]
        by_cases h3 : m < maxCount rest
        · have hmx : max e.2.vote_count (maxCount rest) = maxCount rest := by
            omega
          have hne : ¬ (e.2.vote_count = maxCount rest) := by omega
          simp only [hmx]
          simp [h3, hne, List.filter_cons]
        · have hmx : max e.2.vote_count (maxCount rest) = maxCount rest ∨
              max e.2.vote_count (maxCount rest) = e.2.vote_count := by omega
          have hmm : ¬ (m < max e.2.vote_count (maxCount rest)) := by omega
          have hf1 : max m (maxCount rest) = m := by omega
          have hf2 : max m (max e.2.vote_count (maxCount rest)) = m := by
            omega
          have hne : ¬ (e.2.vote_count = m) := by omega
          simp [h3, hmm, hf1, hf2, hne, List.filter_cons]

theorem winners_eq (l : List (ProposalId × Proposal)) :
    (winners_loop 0 [] l).2 =
      (l.filter (fun e => e.2.vote_count = maxCount l)).map Prod.fst := by
  rw [winners_loop_eq]
  by_cases h : 0 < maxCount l
  · simp [h]
  · have h0 : maxCount l = 0 := by omega
    simp [h, h0]

end Govote

namespace Govote

theorem vote_err_no_proposal {s : State} {a : Address} {pid : ProposalId}
    (hpl : alookup pid s.proposals = none) :
    contract_vote s a pid = (Except.error ContractError.ProposalIsNotFound, s) := by
  simp [contract_vote, hpl]

theorem vote_err_finished {s : State} {a : Address} {pid : ProposalId}
    {pv : Proposal} (hpl : alookup pid s.proposals = some pv)
    (hst : s.status = Status.Finished) :
    contract_vote s a pid = (Except.error ContractError.AlreadyFinished, s) := by
  simp [contract_vote, hpl, hst]

theorem vote_eq_newvoter {s : State} {a : Address} {pid : ProposalId}
    {pv : Proposal} (hpl : alookup pid s.proposals = some pv)
    (hst : ¬ s.status = Status.Finished) (hv : alookup a s.voters = none) :
    contract_vote s a pid =
      (Except.ok (),
        { s with
          voters := s.voters ++ [(a, ⟨1, true, pid⟩)],
          proposals := aupdate pid
            (fun p => { p with vote_count := p.vote_count + 1 })
            s.proposals }) := by
  have h2 : aentry a VoterState.defaultVal
      (fun v => { v with voted := true, weight := 1, vote := pid }) s.voters =
      s.voters ++ [(a, ⟨1, true, pid⟩)] := by
    rw [aentry_of_none _ _ hv]
  have h3 : alookup a (s.voters ++ [(a, (⟨1, true, pid⟩ : VoterState))]) =
      some ⟨1, true, pid⟩ := by
    rw [alookup_append_none _ hv]
    simp [alookup]
  simp only [contract_vote, hpl, if_neg hst, State.get_voter, hv,
    State.add_vote_count, h2, h3]
  rw [aentry_of_some _ _ hpl]
  rfl

theorem vote_eq_unvoted {s : State} {a : Address} {pid : ProposalId}
    {pv : Proposal} {v : VoterState} (hpl : alookup pid s.proposals = some pv)
    (hst : ¬ s.status = Status.Finished) (hv : alookup a s.voters = some v)
    (hvt : v.voted = false) :
    contract_vote s a pid =
      (Except.ok (),
        { s with
          voters := aupdate a
            (fun w => { w with voted := true, weight := 1, vote := pid })
            s.voters,
          proposals := aupdate pid
            (fun p => { p with vote_count := p.vote_count + 1 })
            s.proposals }) := by
  have h2 : aentry a VoterState.defaultVal
      (fun w => { w with voted := true, weight := 1, vote := pid }) s.voters =
      aupdate a (fun w => { w with voted := true, weight := 1, vote := pid })
        s.voters :=
    aentry_of_some _ _ hv
  have h3 : alookup a (aupdate a
      (fun w => { w with voted := true, weight := 1, vote := pid })
      s.voters) = some { v with voted := true, weight := 1, vote := pid } :=
    alookup_aupdate_self _ hv
  simp only [contract_vote, hpl, if_neg hst, State.get_voter, hv, hvt,
    State.add_vote_count, h2, h3, Bool.false_eq_true, if_false]
  rw [aentry_of_some _ _ hpl]
  rfl

theorem vote_eq_voted {s : State} {a : Address} {pid : ProposalId}
    {pv qp : Proposal} {v : VoterState}
    (hpl : alookup pid s.proposals = some pv)
    (hst : ¬ s.status = Status.Finished) (hv : alookup a s.voters = some v)
    (hvt : v.voted = true) (hqp : alookup v.vote s.proposals = some qp) :
    contract_vote s a pid =
      (Except.ok (),
        { s with
          voters := aupdate a
            (fun w => { w with voted := true, weight := 1, vote := pid })
            s.voters,
          proposals := aupdate pid
            (fun p => { p with vote_count := p.vote_count + 1 })
            (aupdate v.vote
              (fun p => { p with vote_count := p.vote_count - v.weight })
              s.proposals) }) := by
  have h1 : aentry v.vote Proposal.defaultVal
      (fun p => { p with vote_count := p.vote_count - v.weight })
      s.proposals =
      aupdate v.vote (fun p => { p with vote_count := p.vote_count - v.weight })
        s.proposals :=
    aentry_of_some _ _ hqp
  have h2 : aentry a VoterState.defaultVal
      (fun w => { w with voted := true, weight := 1, vote := pid }) s.voters =
      aupdate a (fun w => { w with voted := true, weight := 1, vote := pid })
        s.voters :=
    aentry_of_some _ _ hv
  have h3 : alookup a (aupdate a
      (fun w => { w with voted := true, weight := 1, vote := pid })
      s.voters) = some { v with voted := true, weight := 1, vote := pid } :=
    alookup_aupdate_self _ hv
  have h4 : ∃ pv1, alookup pid
      (aupdate v.vote (fun p => { p with vote_count := p.vote_count - v.weight })
        s.proposals) = some pv1 := by
    by_cases hq : pid = v.vote
    · subst hq
      exact ⟨_, alookup_aupdate_self _ hpl⟩
    · exact ⟨pv, by rw [alookup_aupdate_ne hq _]; exact hpl⟩
  obtain ⟨pv1, hpv1⟩ := h4
  simp only [contract_vote, hpl, if_neg hst, State.get_voter, hv, hvt,
    State.subtract_vote_count, h1, State.add_vote_count, h2, h3, if_true]
  rw [aentry_of_some _ _ hpv1]
  rfl

theorem cancel_err_finished {s : State} {a : Address}
    (hst : s.status = Status.Finished) :
    cancel_vote s a = (Except.error ContractError.AlreadyFinished, s) := by
  simp [cancel_vote, hst]

theorem cancel_err_unknown {s : State} {a : Address}
    (hst : ¬ s.status = Status.Finished) (hv : alookup a s.voters = none) :
    cancel_vote s a = (Except.error ContractError.VoterIsNotFound, s) := by
  simp [cancel_vote, hst, hv]

theorem cancel_err_notvoted {s : State} {a : Address} {v : VoterState}
    (hst : ¬ s.status = Status.Finished) (hv : alookup a s.voters = some v)
    (hvt : v.voted = false) :
    cancel_vote s a = (Except.error ContractError.NotVoted, s) := by
  simp [cancel_vote, hst, hv, hvt]

theorem cancel_eq_ok {s : State} {a : Address} {v : VoterState} {qp : Proposal}
    (hst : ¬ s.status = Status.Finished) (hv : alookup a s.voters = some v)
    (hvt : v.voted = true) (hqp : alookup v.vote s.proposals = some qp) :
    cancel_vote s a =
      (Except.ok (),
        { s with
          proposals := aupdate v.vote
            (fun p => { p with vote_count := p.vote_count - v.weight })
            s.proposals,
          voters := aupdate a
            (fun w => { w with voted := false, vote := 0 }) s.voters }) := by
  simp [cancel_vote, hst, hv, hvt, hqp]

theorem tally_err_finished {s : State} (hst : s.status = Status.Finished) :
    contract_winning_proposal s =
      (Except.error ContractError.AlreadyFinished, s) := by
  simp [contract_winning_proposal, hst]

theorem tally_eq {s : State} (hst : ¬ s.status = Status.Finished) :
    contract_winning_proposal s =
      (Except.ok (),
        { s with
          status := Status.Finished
          winning_proposal_id :=
            (s.proposals.filter
              (fun e => e.2.vote_count = maxCount s.proposals)).map
              Prod.fst }) := by
  simp [contract_winning_proposal, hst, winners_eq]

end Govote


namespace Govote

theorem mem_ainsert {β : Type} {k : Nat} {v : β} {e : Nat × β}
    {l : List (Nat × β)} (he : e ∈ ainsert k v l) : e ∈ l ∨ e = (k, v) := by
  unfold ainsert aentry at he
  cases hl : alookup k l with
  | some w =>
    rw [hl] at he
    rcases mem_aupdate he with h | ⟨w', _, h⟩
    · exact Or.inl h
    · exact Or.inr h
  | none =>
    rw [hl] at he
    rcases List.mem_append.mp he with h | h
    · exact Or.inl h
    · simp at h
      exact Or.inr (by simp [h])

theorem foldl_ainsert_pres (P : Nat × Proposal → Prop) :
    ∀ (xs : List (Nat × String)) (acc : List (Nat × Proposal)),
      (∀ e ∈ acc, P e) → (∀ x ∈ xs, P (x.1 % 256, Proposal.new x.2)) →
      ∀ e ∈ xs.foldl (fun m p => ainsert (p.1 % 256) (Proposal.new p.2) m) acc,
        P e := by
  intro xs
  induction xs with
  | nil =>
    intro acc hacc _ e he
    exact hacc e he
  | cons x rest ih =>
    intro acc hacc hxs e he
    refine ih (ainsert (x.1 % 256) (Proposal.new x.2) acc) ?_ ?_ e he
    · intro e' he'
      rcases mem_ainsert he' with h | h
      · exact hacc e' h
      · rw [h]
        exact hxs x (by simp)
    · intro x' hx'
      exact hxs x' (by simp [hx'])

theorem State_new_mem {t d : String} {ex : Nat} {names : List String} :
    ∀ e ∈ (State.new t d names ex).proposals,
      e.1 < 256 ∧ e.2.vote_count = 0 := by
  exact foldl_ainsert_pres (fun e => e.1 < 256 ∧ e.2.vote_count = 0)
    names.enum [] (by simp)
    (fun x _ => ⟨Nat.mod_lt _ (by omega), rfl⟩)

theorem asum_zero {β : Type} (h : β → Nat) {l : List (Nat × β)}
    (hl : ∀ e ∈ l, h e.2 = 0) : asum h l = 0 := by
  induction l with
  | nil => rfl
  | cons e rest ih =>
    rw [asum_cons, hl e (by simp), ih (fun x hx => hl x (by simp [hx]))]

theorem vwf_of_voted {v : VoterState} {q : ProposalId} (h1 : v.voted = true)
    (h2 : v.vote = q) : voteWeightFor q v = v.weight := by
  simp [voteWeightFor, h1, h2]

theorem vwf_of_ne {v : VoterState} {q : ProposalId} (h2 : ¬ v.vote = q) :
    voteWeightFor q v = 0 := by
  simp [voteWeightFor, h2]

theorem vwf_of_unvoted {v : VoterState} {q : ProposalId}
    (h1 : v.voted = false) : voteWeightFor q v = 0 := by
  simp [voteWeightFor, h1]

theorem vw_of_voted {v : VoterState} (h : v.voted = true) :
    votedWeight v = v.weight := by
  simp [votedWeight, h]

theorem vw_of_unvoted {v : VoterState} (h : v.voted = false) :
    votedWeight v = 0 := by
  simp [votedWeight, h]

theorem votesFor_set {a : Address} {vs : List (Address × VoterState)}
    {v : VoterState} (pid q : ProposalId) (hv : alookup a vs = some v) :
    votesFor q (aupdate a
      (fun w => { w with voted := true, weight := 1, vote := pid }) vs) +
      voteWeightFor q v =
      votesFor q vs + (if pid = q then 1 else 0) := by
  have hexp := asum_aupdate (voteWeightFor q)
    (fun w => { w with voted := true, weight := 1, vote := pid }) hv
  have hfv : voteWeightFor q { v with voted := true, weight := 1, vote := pid }
      = if pid = q then 1 else 0 := by
    simp [voteWeightFor]
  rw [hfv] at hexp
  exact hexp

theorem votesFor_clearv {a : Address} {vs : List (Address × VoterState)}
    {v : VoterState} (q : ProposalId) (hv : alookup a vs = some v) :
    votesFor q (aupdate a
      (fun w => { w with voted := false, vote := 0 }) vs) +
      voteWeightFor q v = votesFor q vs := by
  have hexp := asum_aupdate (voteWeightFor q)
    (fun w => { w with voted := false, vote := 0 }) hv
  have hfv : voteWeightFor q { v with voted := false, vote := 0 } = 0 := by
    simp [voteWeightFor]
  rw [hfv] at hexp
  simp only [votesFor]
  omega

theorem votesFor_append (vs : List (Address × VoterState)) (a : Address)
    (nv : VoterState) (q : ProposalId) :
    votesFor q (vs ++ [(a, nv)]) = votesFor q vs + voteWeightFor q nv := by
  simp [votesFor, asum_append, asum_cons, asum_nil]

theorem sumWeights_set {a : Address} {vs : List (Address × VoterState)}
    {v : VoterState} (pid : ProposalId) (hv : alookup a vs = some v) :
    sumWeights (aupdate a
      (fun w => { w with voted := true, weight := 1, vote := pid }) vs) +
      votedWeight v = sumWeights vs + 1 := by
  have hexp := asum_aupdate votedWeight
    (fun w => { w with voted := true, weight := 1, vote := pid }) hv
  have hfv : votedWeight { v with voted := true, weight := 1, vote := pid }
      = 1 := by
    simp [votedWeight]
  rw [hfv] at hexp
  exact hexp

theorem sumWeights_clearv {a : Address} {vs : List (Address × VoterState)}
    {v : VoterState} (hv : alookup a vs = some v) :
    sumWeights (aupdate a
      (fun w => { w with voted := false, vote := 0 }) vs) +
      votedWeight v = sumWeights vs := by
  have hexp := asum_aupdate votedWeight
    (fun w => { w with voted := false, vote := 0 }) hv
  have hfv : votedWeight { v with voted := false, vote := 0 } = 0 := by
    simp [votedWeight]
  rw [hfv] at hexp
  simp only [sumWeights]
  omega

theorem sumWeights_append (vs : List (Address × VoterState)) (a : Address)
    (nv : VoterState) :
    sumWeights (vs ++ [(a, nv)]) = sumWeights vs + votedWeight nv := by
  simp [sumWeights, asum_append, asum_cons, asum_nil]

theorem sumVotes_add {pid : ProposalId} {ps : List (ProposalId × Proposal)}
    {pv : Proposal} (w : Nat) (hpl : alookup pid ps = some pv) :
    sumVotes (aupdate pid
      (fun p => { p with vote_count := p.vote_count + w }) ps) =
      sumVotes ps + w := by
  have h5 := asum_aupdate Proposal.vote_count
    (fun p => { p with vote_count := p.vote_count + w }) hpl
  have hred : Proposal.vote_count { pv with vote_count := pv.vote_count + w }
      = pv.vote_count + w := rfl
  rw [hred] at h5
  simp only [sumVotes]
  omega

theorem sumVotes_sub {pid : ProposalId} {ps : List (ProposalId × Proposal)}
    {pv : Proposal} (w : Nat) (hpl : alookup pid ps = some pv) :
    sumVotes (aupdate pid
      (fun p => { p with vote_count := p.vote_count - w }) ps) +
      pv.vote_count = sumVotes ps + (pv.vote_count - w) := by
  have h5 := asum_aupdate Proposal.vote_count
    (fun p => { p with vote_count := p.vote_count - w }) hpl
  have hred : Proposal.vote_count { pv with vote_count := pv.vote_count - w }
      = pv.vote_count - w := rfl
  rw [hred] at h5
  exact h5

theorem countOf_add_self {pid : ProposalId} {ps : List (ProposalId × Proposal)}
    {pv : Proposal} (w : Nat) (hpl : alookup pid ps = some pv) :
    countOf pid (aupdate pid
      (fun p => { p with vote_count := p.vote_count + w }) ps) =
      pv.vote_count + w := by
  rw [countOf_aupdate_self _ hpl]

theorem countOf_sub_self {pid : ProposalId} {ps : List (ProposalId × Proposal)}
    {pv : Proposal} (w : Nat) (hpl : alookup pid ps = some pv) :
    countOf pid (aupdate pid
      (fun p => { p with vote_count := p.vote_count - w }) ps) =
      pv.vote_count - w := by
  rw [countOf_aupdate_self _ hpl]

end Govote

namespace Govote

theorem Inv.of_fields {vs : List (Address × VoterState)}
    {ps : List (ProposalId × Proposal)} {st : Status}
    {wid : List ProposalId} {t d : String} {ex : Nat}
    (h1 : ∀ e ∈ vs, e.2.weight = 1)
    (h2 : ∀ e ∈ vs, e.2.voted = true → (alookup e.2.vote ps).isSome = true)
    (h3 : ∀ pid, votesFor pid vs ≤ countOf pid ps)
    (h4 : sumVotes ps = sumWeights vs) :
    Inv (State.mk vs ps st wid t d ex) :=
  ⟨h1, h2, h3, h4⟩

theorem Inv_init (t d : String) (names : List String) (ex : Nat) :
    Inv (State.new t d names ex) := by
  refine ⟨?_, ?_, ?_, ?_⟩
  · intro e he
    simp [State.new] at he
  · intro e he
    simp [State.new] at he
  · intro pid
    have hv : votesFor pid (State.new t d names ex).voters = 0 := by
      simp [State.new, votesFor, asum_nil]
    omega
  · have h1 : sumVotes (State.new t d names ex).proposals = 0 :=
      asum_zero _ (fun e he => (State_new_mem e he).2)
    have h2 : sumWeights (State.new t d names ex).voters = 0 := by
      simp [State.new, sumWeights, asum_nil]
    omega

theorem Inv_vote {s : State} (hI : Inv s) (a : Address) (pid : ProposalId) :
    Inv (contract_vote s a pid).2 := by
  cases hpl : alookup pid s.proposals with
  | none =>
    rw [vote_err_no_proposal hpl]
    exact hI
  | some pv =>
    by_cases hst : s.status = Status.Finished
    · rw [vote_err_finished hpl hst]
      exact hI
    · cases hv : alookup a s.voters with
      | none =>
        rw [vote_eq_newvoter hpl hst hv]
        refine Inv.of_fields ?_ ?_ ?_ ?_
        · intro e he
          rcases List.mem_append.mp he with h | h
          · exact hI.weightOne e h
          · simp at h
            rw [h]
        · intro e he hev
          rw [alookup_aupdate_isSome]
          rcases List.mem_append.mp he with h | h
          · exact hI.voteValid e h hev
          · simp at h
            rw [h]
            simp [hpl]
        · intro q
          have hexp := votesFor_append s.voters a ⟨1, true, pid⟩ q
          have hpp := hI.perProp q
          by_cases hq : q = pid
          · have hco : countOf q (aupdate pid
                (fun p => { p with vote_count := p.vote_count + 1 })
                s.proposals) = pv.vote_count + 1 := by
              rw [hq]
              exact countOf_add_self 1 hpl
            have hw : voteWeightFor q (⟨1, true, pid⟩ : VoterState) = 1 :=
              vwf_of_voted rfl hq.symm
            have hcq : countOf q s.proposals = pv.vote_count := by
              rw [hq]
              exact countOf_eq hpl
            rw [hexp, hco, hw]
            omega
          · have hco : countOf q (aupdate pid
                (fun p => { p with vote_count := p.vote_count + 1 })
                s.proposals) = countOf q s.proposals :=
              countOf_aupdate_ne hq _ _
            have hw : voteWeightFor q (⟨1, true, pid⟩ : VoterState) = 0 :=
              vwf_of_ne (fun h => hq h.symm)
            rw [hexp, hco, hw]
            omega
        · have c2 := sumVotes_add 1 hpl
          have c3 := sumWeights_append s.voters a ⟨1, true, pid⟩
          have c4 : votedWeight (⟨1, true, pid⟩ : VoterState) = 1 := by
            simp [votedWeight]
          have hcons := hI.conservation
          rw [c4] at c3
          rw [c2, c3]
          omega
      | some v =>
        cases hvt : v.voted with
        | false =>
          rw [vote_eq_unvoted hpl hst hv hvt]
          refine Inv.of_fields ?_ ?_ ?_ ?_
          · intro e he
            rcases mem_aupdate he with h | ⟨w, _, h⟩
            · exact hI.weightOne e h
            · rw [h]
          · intro e he hev
            rw [alookup_aupdate_isSome]
            rcases mem_aupdate he with h | ⟨w, _, h⟩
            · exact hI.voteValid e h hev
            · rw [h]
              simp [hpl]
          · intro q
            have e3 := votesFor_set pid q hv
            have hwv : voteWeightFor q v = 0 := vwf_of_unvoted hvt
            have hpp := hI.perProp q
            rw [hwv] at e3
            by_cases hq : q = pid
            · have hco : countOf q (aupdate pid
                  (fun p => { p with vote_count := p.vote_count + 1 })
                  s.proposals) = pv.vote_count + 1 := by
                rw [hq]
                exact countOf_add_self 1 hpl
              have hcq : countOf q s.proposals = pv.vote_count := by
                rw [hq]
                exact countOf_eq hpl
              rw [if_pos hq.symm] at e3
              rw [hco]
              omega
            · have hco : countOf q (aupdate pid
                  (fun p => { p with vote_count := p.vote_count + 1 })
                  s.proposals) = countOf q s.proposals :=
                countOf_aupdate_ne hq _ _
              rw [if_neg (fun h => hq h.symm)] at e3
              rw [hco]
              omega
          · have c2 := sumVotes_add 1 hpl
            have c3 := sumWeights_set pid hv
            have hvw : votedWeight v = 0 := vw_of_unvoted hvt
            have hcons := hI.conservation
            rw [hvw] at c3
            rw [c2]
            omega
        | true =>
          have hqs : (alookup v.vote s.proposals).isSome = true :=
            hI.voteValid (a, v) (alookup_mem hv) hvt
          obtain ⟨qp, hqp⟩ := Option.isSome_iff_exists.mp hqs
          rw [vote_eq_voted hpl hst hv hvt hqp]
          have hwle : v.weight ≤ qp.vote_count := by
            have m1 : voteWeightFor v.vote v = v.weight :=
              vwf_of_voted hvt rfl
            have m2 : voteWeightFor v.vote v ≤ votesFor v.vote s.voters :=
              alookup_le_asum _ hv
            have m3 := hI.perProp v.vote
            rw [countOf_eq hqp] at m3
            omega
          have hpv1 : ∃ pv1, alookup pid (aupdate v.vote
              (fun p => { p with vote_count := p.vote_count - v.weight })
              s.proposals) = some pv1 := by
            by_cases hqv : pid = v.vote
            · rw [hqv]
              exact ⟨_, alookup_aupdate_self _ hqp⟩
            · refine ⟨pv, ?_⟩
              rw [alookup_aupdate_ne hqv _]
              exact hpl
          obtain ⟨pv1, hpv1⟩ := hpv1
          have hsub : ∀ q, countOf q (aupdate v.vote
              (fun p => { p with vote_count := p.vote_count - v.weight })
              s.proposals) =
              countOf q s.proposals - (if q = v.vote then v.weight else 0) := by
            intro q
            by_cases hq : q = v.vote
            · rw [if_pos hq, hq]
              rw [countOf_sub_self v.weight hqp, countOf_eq hqp]
            · rw [if_neg hq, countOf_aupdate_ne hq _]
              omega
          have hadd : ∀ q, countOf q (aupdate pid
              (fun p => { p with vote_count := p.vote_count + 1 })
              (aupdate v.vote
                (fun p => { p with vote_count := p.vote_count - v.weight })
                s.proposals)) =
              countOf q (aupdate v.vote
                (fun p => { p with vote_count := p.vote_count - v.weight })
                s.proposals) + (if q = pid then 1 else 0) := by
            intro q
            by_cases hq : q = pid
            · rw [if_pos hq, hq]
              rw [countOf_add_self 1 hpv1, countOf_eq hpv1]
            · rw [if_neg hq, countOf_aupdate_ne hq _]
              omega
          refine Inv.of_fields ?_ ?_ ?_ ?_
          · intro e he
            rcases mem_aupdate he with h | ⟨w, _, h⟩
            · exact hI.weightOne e h
            · rw [h]
          · intro e he hev
            rw [alookup_aupdate_isSome, alookup_aupdate_isSome]
            rcases mem_aupdate he with h | ⟨w, _, h⟩
            · exact hI.voteValid e h hev
            · rw [h]
              simp [hpl]
          · intro q
            have e1 := hsub q
            have e2 := hadd q
            have e3 := votesFor_set pid q hv
            have vle : voteWeightFor q v ≤ votesFor q s.voters :=
              alookup_le_asum _ hv
            have hpp := hI.perProp q
            have hcq : q = v.vote → countOf q s.proposals = qp.vote_count := by
              intro h
              rw [h]
              exact countOf_eq hqp
            by_cases hq2 : q = v.vote
            · have hwv : voteWeightFor q v = v.weight :=
                vwf_of_voted hvt hq2.symm
              rw [if_pos hq2] at e1
              rw [hwv] at e3 vle
              have hc := hcq hq2
              by_cases hq1 : q = pid
              · rw [if_pos hq1] at e2
                rw [if_pos hq1.symm] at e3
                omega
              · rw [if_neg hq1] at e2
                rw [if_neg (fun h => hq1 h.symm)] at e3
                omega
            · have hwv : voteWeightFor q v = 0 :=
                vwf_of_ne (fun h => hq2 h.symm)
              rw [if_neg hq2] at e1
              rw [hwv] at e3
              by_cases hq1 : q = pid
              · rw [if_pos hq1] at e2
                rw [if_pos hq1.symm] at e3
                omega
              · rw [if_neg hq1] at e2
                rw [if_neg (fun h => hq1 h.symm)] at e3
                omega
          · have c1 := sumVotes_sub v.weight hqp
            have c2 := sumVotes_add 1 hpv1
            have c3 := sumWeights_set pid hv
            have hvw : votedWeight v = v.weight := vw_of_voted hvt
            have hqle : qp.vote_count ≤ sumVotes s.proposals :=
              alookup_le_asum _ hqp
            have hwle2 : v.weight ≤ sumWeights s.voters := by
              have h := alookup_le_asum votedWeight hv
              rw [hvw] at h
              exact h
            have hcons := hI.conservation
            rw [hvw] at c3
            rw [c2]
            omega

theorem Inv_cancel {s : State} (hI : Inv s) (a : Address) :
    Inv (cancel_vote s a).2 := by
  by_cases hst : s.status = Status.Finished
  · rw [cancel_err_finished hst]
    exact hI
  · cases hv : alookup a s.voters with
    | none =>
      rw [cancel_err_unknown hst hv]
      exact hI
    | some v =>
      cases hvt : v.voted with
      | false =>
        rw [cancel_err_notvoted hst hv hvt]
        exact hI
      | true =>
        have hqs : (alookup v.vote s.proposals).isSome = true :=
          hI.voteValid (a, v) (alookup_mem hv) hvt
        obtain ⟨qp, hqp⟩ := Option.isSome_iff_exists.mp hqs
        rw [cancel_eq_ok hst hv hvt hqp]
        have hwle : v.weight ≤ qp.vote_count := by
          have m1 : voteWeightFor v.vote v = v.weight := vwf_of_voted hvt rfl
          have m2 : voteWeightFor v.vote v ≤ votesFor v.vote s.voters :=
            alookup_le_asum _ hv
          have m3 := hI.perProp v.vote
          rw [countOf_eq hqp] at m3
          omega
        refine Inv.of_fields ?_ ?_ ?_ ?_
        · intro e he
          rcases mem_aupdate he with h | ⟨w, hw, h⟩
          · exact hI.weightOne e h
          · rw [h]
            exact hI.weightOne (a, w) hw
        · intro e he hev
          rw [alookup_aupdate_isSome]
          rcases mem_aupdate he with h | ⟨w, _, h⟩
          · exact hI.voteValid e h hev
          · rw [h] at hev
            simp at hev
        · intro q
          have e3 := votesFor_clearv q hv
          have hpp := hI.perProp q
          by_cases hq2 : q = v.vote
          · have hwv : voteWeightFor q v = v.weight :=
              vwf_of_voted hvt hq2.symm
            have vle : voteWeightFor q v ≤ votesFor q s.voters :=
              alookup_le_asum _ hv
            have hco : countOf q (aupdate v.vote
                (fun p => { p with vote_count := p.vote_count - v.weight })
                s.proposals) = qp.vote_count - v.weight := by
              rw [hq2]
              exact countOf_sub_self v.weight hqp
            have hcq : countOf q s.proposals = qp.vote_count := by
              rw [hq2]
              exact countOf_eq hqp
            rw [hwv] at e3 vle
            rw [hco]
            omega
          · have hwv : voteWeightFor q v = 0 :=
              vwf_of_ne (fun h => hq2 h.symm)
            have hco : countOf q (aupdate v.vote
                (fun p => { p with vote_count := p.vote_count - v.weight })
                s.proposals) = countOf q s.proposals :=
              countOf_aupdate_ne hq2 _ _
            rw [hwv] at e3
            rw [hco]
            omega
        · have c1 := sumVotes_sub v.weight hqp
          have c3 := sumWeights_clearv hv
          have hvw : votedWeight v = v.weight := vw_of_voted hvt
          have hqle : qp.vote_count ≤ sumVotes s.proposals :=
            alookup_le_asum _ hqp
          have hwle2 : v.weight ≤ sumWeights s.voters := by
            have h := alookup_le_asum votedWeight hv
            rw [hvw] at h
            exact h
          have hcons := hI.conservation
          rw [hvw] at c3
          omega

theorem Inv_tally {s : State} (hI : Inv s) :
    Inv (contract_winning_proposal s).2 := by
  by_cases hst : s.status = Status.Finished
  · rw [tally_err_finished hst]
    exact hI
  · rw [tally_eq hst]
    exact ⟨hI.weightOne, hI.voteValid, hI.perProp, hI.conservation⟩

theorem reachable_inv {s : State} (h : Reachable s) : Inv s := by
  induction h with
  | init t d names ex => exact Inv_init t d names ex
  | vote a pid _ ih => exact Inv_vote ih a pid
  | cancel a _ ih => exact Inv_cancel ih a
  | tally _ ih => exact Inv_tally ih

end Govote

namespace Govote

theorem mem_le_asum {β : Type} (h : β → Nat) {e : Nat × β}
    {l : List (Nat × β)} (he : e ∈ l) : h e.2 ≤ asum h l := by
  induction l with
  | nil => cases he
  | cons x rest ih =>
    rw [List.mem_cons] at he
    rw [asum_cons]
    rcases he with he | he
    · rw [he]
      omega
    · have := ih he
      omega

theorem vote_result_ok {s : State} {a : Address} {pid : ProposalId}
    {pv : Proposal} (hpl : alookup pid s.proposals = some pv)
    (hst : ¬ s.status = Status.Finished) :
    (contract_vote s a pid).1 = Except.ok () := by
  simp [contract_vote, hpl, hst]

theorem cancel_err_no_proposal {s : State} {a : Address} {v : VoterState}
    (hst : ¬ s.status = Status.Finished) (hv : alookup a s.voters = some v)
    (hvt : v.voted = true) (hqp : alookup v.vote s.proposals = none) :
    cancel_vote s a = (Except.error ContractError.ProposalIsNotFound, s) := by
  simp [cancel_vote, hst, hv, hvt, hqp]

theorem enumFrom_fold (names : List String) :
    ∀ (k : Nat) (acc : List (ProposalId × Proposal)),
      (∀ e ∈ acc, e.1 < k) → k + names.length ≤ 256 →
      (List.enumFrom k names).foldl
        (fun m p => ainsert (p.1 % 256) (Proposal.new p.2) m) acc =
        acc ++ (List.enumFrom k names).map (fun p => (p.1, Proposal.new p.2)) := by
  induction names with
  | nil =>
    intro k acc _ _
    simp
  | cons n rest ih =>
    intro k acc hacc hlen
    have hlen2 : k + (rest.length + 1) ≤ 256 := by simpa using hlen
    have hk : k < 256 := by omega
    have hmod : k % 256 = k := Nat.mod_eq_of_lt hk
    have hnone : alookup k acc = none := by
      apply alookup_eq_none
      intro e he
      have h1 : e.1 < k := hacc e he
      omega
    have hstep : ainsert (k % 256) (Proposal.new n) acc =
        acc ++ [(k, Proposal.new n)] := by
      rw [hmod]
      unfold ainsert
      rw [aentry_of_none _ _ hnone]
    have harg1 : ∀ e ∈ acc ++ [(k, Proposal.new n)], e.1 < k + 1 := by
      intro e he
      rcases List.mem_append.mp he with h | h
      · exact Nat.lt_succ_of_lt (hacc e h)
      · simp at h
        rw [h]
        exact Nat.lt_succ_self k
    have harg2 : (k + 1) + rest.length ≤ 256 := by omega
    have hrec := ih (k + 1) (acc ++ [(k, Proposal.new n)]) harg1 harg2
    simp only [List.enumFrom, List.foldl_cons, List.map_cons]
    rw [hstep, hrec]
    simp

theorem State_new_proposals_eq {t d : String} {ex : Nat} {names : List String}
    (hlen : names.length ≤ 256) :
    (State.new t d names ex).proposals =
      names.enum.map (fun p => (p.1, Proposal.new p.2)) := by
  have h := enumFrom_fold names 0 [] (by simp) (by omega)
  simpa [State.new, List.enum] using h

theorem State_new_keys_range {t d : String} {ex : Nat} {names : List String} :
    ∀ k, 256 ≤ k → alookup k (State.new t d names ex).proposals = none := by
  intro k hk
  apply alookup_eq_none
  intro e he
  have h1 : e.1 < 256 := (State_new_mem e he).1
  omega

end Govote

namespace Govote

theorem reach_exInit : Reachable exInit :=
  Reachable.init "Test Title" "This is test description." ["A", "B"] 1

theorem reach_exVoted : Reachable exVoted :=
  Reachable.vote 1 0 reach_exInit

/-- C1: for every session with status `InProcess`, `contract_winning_proposal`
succeeds, sets the status to `Finished`, and stores as
`winning_proposal_id` exactly the ids whose `vote_count` equals the maximum
`vote_count` over all proposals (`maxCount`, which the two middle conjuncts
certify to be that maximum); ties are all included, and when every count is
zero the winner set contains every proposal id. -/
theorem tally_winner_set_is_argmax (s : State)
    (hs : s.status = Status.InProcess) :
    (contract_winning_proposal s).1 = Except.ok () ∧
    (contract_winning_proposal s).2.status = Status.Finished ∧
    (∀ pid, pid ∈ (contract_winning_proposal s).2.winning_proposal_id ↔
      ∃ p, (pid, p) ∈ s.proposals ∧ p.vote_count = maxCount s.proposals) ∧
    (∀ e ∈ s.proposals, e.2.vote_count ≤ maxCount s.proposals) ∧
    (s.proposals ≠ [] →
      ∃ e ∈ s.proposals, e.2.vote_count = maxCount s.proposals) ∧
    ((∀ e ∈ s.proposals, e.2.vote_count = 0) →
      ∀ e ∈ s.proposals,
        e.1 ∈ (contract_winning_proposal s).2.winning_proposal_id) := by
  have hst : ¬ s.status = Status.Finished := by
    rw [hs]
    decide
  have hwin : (contract_winning_proposal s).2.winning_proposal_id =
      (s.proposals.filter
        (fun e => e.2.vote_count = maxCount s.proposals)).map Prod.fst := by
    rw [tally_eq hst]
  refine ⟨by rw [tally_eq hst], by rw [tally_eq hst], ?_, le_maxCount,
    fun hne => maxCount_attained hne, ?_⟩
  · intro pid
    rw [hwin]
    constructor
    · intro h
      obtain ⟨e, he, hfst⟩ := List.mem_map.mp h
      have he2 := List.mem_filter.mp he
      refine ⟨e.2, ?_, ?_⟩
      · rw [← hfst]
        exact he2.1
      · simpa using he2.2
    · rintro ⟨p, hp, hc⟩
      exact List.mem_map.mpr
        ⟨(pid, p), List.mem_filter.mpr ⟨hp, by simpa using hc⟩, rfl⟩
  · intro h0 e he
    rw [hwin]
    have hne2 : s.proposals ≠ [] := by
      intro hemp
      rw [hemp] at he
      cases he
    obtain ⟨e', he', hm⟩ := maxCount_attained hne2
    have hmz : maxCount s.proposals = 0 := by
      rw [← hm]
      exact h0 e' he'
    exact List.mem_map.mpr
      ⟨e, List.mem_filter.mpr ⟨he, by simp [h0 e he, hmz]⟩, rfl⟩

/-- Witness for C1 at the two-proposal fixture with no votes cast. -/
theorem tally_winner_set_is_argmax_witness :
    exInit.status = Status.InProcess ∧
    (contract_winning_proposal exInit).1 = Except.ok () ∧
    (contract_winning_proposal exInit).2.status = Status.Finished ∧
    (0 ∈ (contract_winning_proposal exInit).2.winning_proposal_id ↔
      ∃ p, ((0 : ProposalId), p) ∈ exInit.proposals ∧
        p.vote_count = maxCount exInit.proposals) := by
  have h := tally_winner_set_is_argmax exInit (by decide)
  exact ⟨by decide, h.1, h.2.1, h.2.2.1 0⟩

/-- C2 (amended): on a `Finished` session every `cancelVote` and
`winningProposal` call, and every `vote` call naming a proposal present in
the registry, fails with `AlreadyFinished` and leaves the state unchanged;
a `vote` call naming an absent proposal id instead fails with
`ProposalIsNotFound` (the source checks proposal existence before the status
check), also leaving the state unchanged. -/
theorem finished_rejects_commands (s : State)
    (hs : s.status = Status.Finished) :
    (∀ a pid, (alookup pid s.proposals).isSome = true →
      contract_vote s a pid =
        (Except.error ContractError.AlreadyFinished, s)) ∧
    (∀ a pid, alookup pid s.proposals = none →
      contract_vote s a pid =
        (Except.error ContractError.ProposalIsNotFound, s)) ∧
    (∀ a, cancel_vote s a = (Except.error ContractError.AlreadyFinished, s)) ∧
    contract_winning_proposal s =
      (Except.error ContractError.AlreadyFinished, s) := by
  refine ⟨?_, ?_, fun a => cancel_err_finished hs, tally_err_finished hs⟩
  · intro a pid hp
    obtain ⟨pv, hpv⟩ := Option.isSome_iff_exists.mp hp
    exact vote_err_finished hpv hs
  · intro a pid hp
    exact vote_err_no_proposal hp

/-- Witness for C2 (amended) on the finished fixture session. -/
theorem finished_rejects_commands_witness :
    exFinished.status = Status.Finished ∧
    contract_vote exFinished 3 0 =
      (Except.error ContractError.AlreadyFinished, exFinished) ∧
    cancel_vote exFinished 3 =
      (Except.error ContractError.AlreadyFinished, exFinished) ∧
    contract_winning_proposal exFinished =
      (Except.error ContractError.AlreadyFinished, exFinished) := by
  have h := finished_rejects_commands exFinished (by decide)
  exact ⟨by decide, h.1 3 0 (by decide), h.2.2.1 3, h.2.2.2⟩

/-- Counterexample to C2 as stated: on a finished session, `vote` with an
out-of-range proposal id (9, for a 2-proposal session) fails with
`ProposalIsNotFound`, not `AlreadyFinished`, because `contract_vote` checks
proposal existence before the status. -/
theorem finished_vote_unknown_proposal_cex :
    exFinished.status = Status.Finished ∧
    (contract_vote exFinished 3 9).1 =
      Except.error ContractError.ProposalIsNotFound ∧
    ContractError.ProposalIsNotFound ≠ ContractError.AlreadyFinished := by
  refine ⟨by decide, rfl, by decide⟩

/-- C3: in every reachable state whose status is `InProcess`, the sum of all
proposals' `vote_count` equals the sum of the weights of the voters whose
`voted` flag is set.  Preservation by each operation is exactly the
induction over `Reachable`. -/
theorem inprocess_vote_conservation (s : State) (h : Reachable s)
    (_hs : s.status = Status.InProcess) :
    sumVotes s.proposals = sumWeights s.voters :=
  (reachable_inv h).conservation

/-- Witness for C3 on the reachable one-voter state. -/
theorem inprocess_vote_conservation_witness :
    exVoted.status = Status.InProcess ∧
    sumVotes exVoted.proposals = sumWeights exVoted.voters :=
  ⟨by decide, inprocess_vote_conservation exVoted reach_exVoted (by decide)⟩

/-- C4 (amended): the tally lists the winning ids in the proposals map's
iteration order — the order in which the hash map enumerates its entries,
which is implementation defined and not necessarily ascending; the winners
are exactly the entries with maximal `vote_count`, in that enumeration
order. -/
theorem tally_order_is_iteration_order (s : State)
    (hs : s.status = Status.InProcess) :
    (contract_winning_proposal s).2.winning_proposal_id =
      (s.proposals.filter
        (fun e => e.2.vote_count = maxCount s.proposals)).map Prod.fst := by
  have hst : ¬ s.status = Status.Finished := by
    rw [hs]
    decide
  rw [tally_eq hst]

/-- Witness for C4 (amended) on the session whose map enumerates id 1
before id 0. -/
theorem tally_order_is_iteration_order_witness :
    exDesc.status = Status.InProcess ∧
    (contract_winning_proposal exDesc).2.winning_proposal_id =
      (exDesc.proposals.filter
        (fun e => e.2.vote_count = maxCount exDesc.proposals)).map Prod.fst :=
  ⟨by decide, tally_order_is_iteration_order exDesc (by decide)⟩

/-- Counterexample to C4 as stated: with the enumeration order observed in
the reference test `test_contract_winning_proposal_no_voters` (id 1 before
id 0, both at zero votes), the tally returns `[1, 0]`, which is not in
ascending `ProposalId` order. -/
theorem tally_order_not_ascending_cex :
    (contract_winning_proposal exDesc).2.winning_proposal_id = [1, 0] ∧
    ¬ List.Pairwise (fun x y => x ≤ y)
      ((contract_winning_proposal exDesc).2.winning_proposal_id) := by
  refine ⟨rfl, by decide⟩

end Govote

namespace Govote

/-- C5: in a reachable `InProcess` session, a voter with a cast vote (for
`v.vote`, with weight `v.weight`, which is 1 in every reachable state) who
votes for a valid proposal `B` succeeds; the grand total of vote counts is
unchanged; when `B` differs from the previous choice, the old proposal's
count drops by exactly the voter's weight and `B`'s count rises by exactly
the voter's weight; when `B` equals the previous choice, every proposal's
count is unchanged (idempotence of re-casting the same vote). -/
theorem vote_change_conservation (s : State) (h : Reachable s)
    (hs : s.status = Status.InProcess) (a : Address) (v : VoterState)
    (B : ProposalId) (pB : Proposal)
    (hv : alookup a s.voters = some v) (hvt : v.voted = true)
    (hB : alookup B s.proposals = some pB) :
    (contract_vote s a B).1 = Except.ok () ∧
    sumVotes (contract_vote s a B).2.proposals = sumVotes s.proposals ∧
    (¬ B = v.vote →
      countOf v.vote (contract_vote s a B).2.proposals + v.weight =
        countOf v.vote s.proposals ∧
      countOf B (contract_vote s a B).2.proposals =
        countOf B s.proposals + v.weight) ∧
    (B = v.vote →
      ∀ q, countOf q (contract_vote s a B).2.proposals =
        countOf q s.proposals) := by
  have hI := reachable_inv h
  have hst : ¬ s.status = Status.Finished := by
    rw [hs]
    decide
  have hqs : (alookup v.vote s.proposals).isSome = true :=
    hI.voteValid (a, v) (alookup_mem hv) hvt
  obtain ⟨qp, hqp⟩ := Option.isSome_iff_exists.mp hqs
  have w1 : v.weight = 1 := hI.weightOne (a, v) (alookup_mem hv)
  have hwle : v.weight ≤ qp.vote_count := by
    have m1 : voteWeightFor v.vote v = v.weight := vwf_of_voted hvt rfl
    have m2 : voteWeightFor v.vote v ≤ votesFor v.vote s.voters :=
      alookup_le_asum _ hv
    have m3 := hI.perProp v.vote
    rw [countOf_eq hqp] at m3
    omega
  have heq := vote_eq_voted hB hst hv hvt hqp
  have hpv1 : ∃ pv1, alookup B (aupdate v.vote
      (fun p => { p with vote_count := p.vote_count - v.weight })
      s.proposals) = some pv1 := by
    by_cases hqv : B = v.vote
    · rw [hqv]
      exact ⟨_, alookup_aupdate_self _ hqp⟩
    · refine ⟨pB, ?_⟩
      rw [alookup_aupdate_ne hqv _]
      exact hB
  obtain ⟨pv1, hpv1⟩ := hpv1
  have hp2 : (contract_vote s a B).2.proposals =
      aupdate B (fun p => { p with vote_count := p.vote_count + 1 })
        (aupdate v.vote
          (fun p => { p with vote_count := p.vote_count - v.weight })
          s.proposals) := by
    rw [heq]
  have hsub : ∀ q, countOf q (aupdate v.vote
      (fun p => { p with vote_count := p.vote_count - v.weight })
      s.proposals) =
      countOf q s.proposals - (if q = v.vote then v.weight else 0) := by
    intro q
    by_cases hq : q = v.vote
    · rw [if_pos hq, hq]
      rw [countOf_sub_self v.weight hqp, countOf_eq hqp]
    · rw [if_neg hq, countOf_aupdate_ne hq _]
      omega
  have hadd : ∀ q, countOf q (aupdate B
      (fun p => { p with vote_count := p.vote_count + 1 })
      (aupdate v.vote
        (fun p => { p with vote_count := p.vote_count - v.weight })
        s.proposals)) =
      countOf q (aupdate v.vote
        (fun p => { p with vote_count := p.vote_count - v.weight })
        s.proposals) + (if q = B then 1 else 0) := by
    intro q
    by_cases hq : q = B
    · rw [if_pos hq, hq]
      rw [countOf_add_self 1 hpv1, countOf_eq hpv1]
    · rw [if_neg hq, countOf_aupdate_ne hq _]
      omega
  refine ⟨by rw [heq], ?_, ?_, ?_⟩
  · have c1 := sumVotes_sub v.weight hqp
    have c2 := sumVotes_add 1 hpv1
    have hqle : qp.vote_count ≤ sumVotes s.proposals :=
      alookup_le_asum _ hqp
    rw [hp2, c2]
    omega
  · intro hne
    have e1 := hsub v.vote
    have e1b := hsub B
    have e2 := hadd v.vote
    have e2b := hadd B
    rw [if_pos rfl] at e1
    rw [if_neg hne] at e1b
    rw [if_neg (fun hh => hne hh.symm)] at e2
    rw [if_pos rfl] at e2b
    have hcv : countOf v.vote s.proposals = qp.vote_count := countOf_eq hqp
    constructor
    · rw [hp2, e2, e1]
      omega
    · rw [hp2, e2b, e1b]
      omega
  · intro heqv q
    have e1 := hsub q
    have e2 := hadd q
    rw [hp2, e2, e1]
    by_cases hq : q = v.vote
    · rw [if_pos hq, if_pos (by rw [hq, ← heqv])]
      have hcv : countOf q s.proposals = qp.vote_count := by
        rw [hq]
        exact countOf_eq hqp
      omega
    · rw [if_neg hq, if_neg (fun hh => hq (by rw [hh, heqv]))]
      omega

/-- Witness for C5: on the one-voter state, switching the vote from
proposal 0 to proposal 1 moves exactly one vote. -/
theorem vote_change_conservation_witness :
    alookup 1 exVoted.voters = some ⟨1, true, 0⟩ ∧
    (contract_vote exVoted 1 1).1 = Except.ok () ∧
    sumVotes (contract_vote exVoted 1 1).2.proposals =
      sumVotes exVoted.proposals ∧
    countOf 0 (contract_vote exVoted 1 1).2.proposals + 1 =
      countOf 0 exVoted.proposals ∧
    countOf 1 (contract_vote exVoted 1 1).2.proposals =
      countOf 1 exVoted.proposals + 1 := by
  have h := vote_change_conservation exVoted reach_exVoted (by decide) 1
    ⟨1, true, 0⟩ 1 (Proposal.new "B") (by decide) (by decide) (by decide)
  have h2 := h.2.2.1 (by decide)
  exact ⟨by decide, h.1, h.2.1, h2.1, h2.2⟩

/-- C6: in a reachable `InProcess` session, `cancel_vote` by an unknown
identity fails with `VoterIsNotFound`, by a known voter with `voted = false`
fails with `NotVoted`, and by a voter with `voted = true` succeeds (so in
reachable states the only cancel failures are those two plus
`AlreadyFinished`): it decrements the chosen proposal's count by exactly the
voter's weight and resets the record to `voted = false`, `vote = 0`. -/
theorem cancel_vote_outcomes (s : State) (h : Reachable s)
    (hs : s.status = Status.InProcess) (a : Address) :
    (alookup a s.voters = none →
      cancel_vote s a = (Except.error ContractError.VoterIsNotFound, s)) ∧
    (∀ v, alookup a s.voters = some v → v.voted = false →
      cancel_vote s a = (Except.error ContractError.NotVoted, s)) ∧
    (∀ v, alookup a s.voters = some v → v.voted = true →
      (cancel_vote s a).1 = Except.ok () ∧
      countOf v.vote (cancel_vote s a).2.proposals + v.weight =
        countOf v.vote s.proposals ∧
      alookup a (cancel_vote s a).2.voters =
        some { v with voted := false, vote := 0 }) := by
  have hI := reachable_inv h
  have hst : ¬ s.status = Status.Finished := by
    rw [hs]
    decide
  refine ⟨fun hv => cancel_err_unknown hst hv,
    fun v hv hvt => cancel_err_notvoted hst hv hvt, ?_⟩
  intro v hv hvt
  have hqs : (alookup v.vote s.proposals).isSome = true :=
    hI.voteValid (a, v) (alookup_mem hv) hvt
  obtain ⟨qp, hqp⟩ := Option.isSome_iff_exists.mp hqs
  have hwle : v.weight ≤ qp.vote_count := by
    have m1 : voteWeightFor v.vote v = v.weight := vwf_of_voted hvt rfl
    have m2 : voteWeightFor v.vote v ≤ votesFor v.vote s.voters :=
      alookup_le_asum _ hv
    have m3 := hI.perProp v.vote
    rw [countOf_eq hqp] at m3
    omega
  have heq := cancel_eq_ok hst hv hvt hqp
  refine ⟨by rw [heq], ?_, ?_⟩
  · have hp2 : (cancel_vote s a).2.proposals =
        aupdate v.vote
          (fun p => { p with vote_count := p.vote_count - v.weight })
          s.proposals := by
      rw [heq]
    rw [hp2, countOf_sub_self v.weight hqp, countOf_eq hqp]
    omega
  · have hv2 : (cancel_vote s a).2.voters =
        aupdate a (fun w => { w with voted := false, vote := 0 })
          s.voters := by
      rw [heq]
    rw [hv2]
    exact alookup_aupdate_self _ hv

/-- Witness for C6: cancelling the single cast vote on the one-voter state
succeeds, returns proposal 0's count to its pre-vote value, and resets the
record. -/
theorem cancel_vote_outcomes_witness :
    (cancel_vote exVoted 1).1 = Except.ok () ∧
    countOf 0 (cancel_vote exVoted 1).2.proposals + 1 =
      countOf 0 exVoted.proposals ∧
    alookup 1 (cancel_vote exVoted 1).2.voters = some ⟨1, false, 0⟩ := by
  have h := cancel_vote_outcomes exVoted reach_exVoted (by decide) 1
  have h3 := h.2.2 ⟨1, true, 0⟩ (by decide) (by decide)
  exact ⟨h3.1, h3.2.1, h3.2.2⟩

/-- C7: whenever any of the three entrypoints returns an error, the state it
returns is exactly the input state: every precondition is checked before any
mutation, so no failed call leaves a partial update. -/
theorem error_leaves_state_unchanged (s : State) (a : Address)
    (pid : ProposalId) :
    (∀ err, (contract_vote s a pid).1 = Except.error err →
      (contract_vote s a pid).2 = s) ∧
    (∀ err, (cancel_vote s a).1 = Except.error err →
      (cancel_vote s a).2 = s) ∧
    (∀ err, (contract_winning_proposal s).1 = Except.error err →
      (contract_winning_proposal s).2 = s) := by
  refine ⟨?_, ?_, ?_⟩
  · intro err herr
    cases hpl : alookup pid s.proposals with
    | none => rw [vote_err_no_proposal hpl]
    | some pv =>
      by_cases hst : s.status = Status.Finished
      · rw [vote_err_finished hpl hst]
      · have hok := @vote_result_ok s a pid pv hpl hst
        rw [hok] at herr
        simp at herr
  · intro err herr
    by_cases hst : s.status = Status.Finished
    · rw [cancel_err_finished hst]
    · cases hv : alookup a s.voters with
      | none => rw [cancel_err_unknown hst hv]
      | some v =>
        cases hvt : v.voted with
        | false => rw [cancel_err_notvoted hst hv hvt]
        | true =>
          cases hqp : alookup v.vote s.proposals with
          | none => rw [cancel_err_no_proposal hst hv hvt hqp]
          | some qp =>
            rw [cancel_eq_ok hst hv hvt hqp] at herr
            simp at herr
  · intro err herr
    by_cases hst : s.status = Status.Finished
    · rw [tally_err_finished hst]
    · rw [tally_eq hst] at herr
      simp at herr

/-- Witness for C7: a vote for an absent proposal id errors and leaves the
fixture state unchanged. -/
theorem error_leaves_state_unchanged_witness :
    (contract_vote exInit 5 9).1 =
      Except.error ContractError.ProposalIsNotFound ∧
    (contract_vote exInit 5 9).2 = exInit := by
  have h := error_leaves_state_unchanged exInit 5 9
  exact ⟨rfl, h.1 ContractError.ProposalIsNotFound rfl⟩

/-- C8: in every reachable state, each voter record with `voted = true` has
its weight bounded by the `vote_count` of its chosen proposal; this is the
exact guard needed by the two unguarded `vote_count -= weight` sites (the
retraction inside `contract_vote` and the decrement inside `cancel_vote`),
so the unsigned subtraction never underflows.  (Counts are embedded as `Nat`,
so "never negative" is the statement that truncation never occurs.) -/
theorem vote_count_no_underflow (s : State) (h : Reachable s) :
    ∀ e ∈ s.voters, e.2.voted = true →
      e.2.weight ≤ countOf e.2.vote s.proposals := by
  intro e he hev
  have hI := reachable_inv h
  have m1 : voteWeightFor e.2.vote e.2 = e.2.weight := vwf_of_voted hev rfl
  have m2 : voteWeightFor e.2.vote e.2 ≤ votesFor e.2.vote s.voters :=
    mem_le_asum _ he
  have m3 := hI.perProp e.2.vote
  omega

/-- Witness for C8 on the one-voter state. -/
theorem vote_count_no_underflow_witness :
    (1, (⟨1, true, 0⟩ : VoterState)) ∈ exVoted.voters ∧
    (⟨1, true, 0⟩ : VoterState).weight ≤ countOf 0 exVoted.proposals := by
  have h := vote_count_no_underflow exVoted reach_exVoted
  exact ⟨by decide, h (1, ⟨1, true, 0⟩) (by decide) (by decide)⟩

/-- C9 (amended): for up to 256 proposal names, initialization assigns ids
0 through `len - 1` in input order, one proposal per name, each with the
corresponding name and `vote_count = 0`; with more than 256 names the
`usize → u8` cast wraps the id modulo 256, so later names overwrite earlier
ids and ids ≥ 256 are never assigned. -/
theorem init_assigns_sequential_ids (t d : String) (ex : Nat)
    (names : List String) (hlen : names.length ≤ 256) :
    (State.new t d names ex).proposals =
      names.enum.map (fun p => (p.1, Proposal.new p.2)) :=
  State_new_proposals_eq hlen

/-- Witness for C9 (amended) on a two-name list. -/
theorem init_assigns_sequential_ids_witness :
    (["A", "B"] : List String).length ≤ 256 ∧
    (State.new "Test Title" "This is test description." ["A", "B"] 1).proposals
      = [(0, Proposal.new "A"), (1, Proposal.new "B")] := by
  refine ⟨by decide, ?_⟩
  rw [init_assigns_sequential_ids "Test Title" "This is test description." 1
    ["A", "B"] (by decide)]
  rfl

/-- Counterexample to C9 as stated: with 257 names the claim requires id
256 (= len - 1) to be assigned, but the `u8` cast wraps and the registry has
no entry at id 256. -/
theorem init_id_wrap_cex :
    (List.replicate 257 "x" : List String).length - 1 = 256 ∧
    alookup 256 (State.new "t" "d" (List.replicate 257 "x") 0).proposals =
      none := by
  refine ⟨by rw [List.length_replicate], ?_⟩
  exact State_new_keys_range 256 (Nat.le_refl 256)

/-- C10: in every reachable state, every voter record has weight exactly 1:
records are only created or overwritten by a successful `vote` (which sets
weight to 1) and `cancel_vote` leaves the weight untouched, so no record
with the default weight 0 is observable between commands. -/
theorem voter_weight_always_one (s : State) (h : Reachable s) :
    ∀ e ∈ s.voters, e.2.weight = 1 :=
  (reachable_inv h).weightOne

/-- Witness for C10 on the one-voter state. -/
theorem voter_weight_always_one_witness :
    (1, (⟨1, true, 0⟩ : VoterState)) ∈ exVoted.voters ∧
    (⟨1, true, 0⟩ : VoterState).weight = 1 := by
  have h := voter_weight_always_one exVoted reach_exVoted
  exact ⟨by decide, h (1, ⟨1, true, 0⟩) (by decide)⟩

end Govote
